import Mathlib

/-!
# Verification of the duplicate-file finder (`duplicates.py`)

Shallow embedding of the core of `duplicates.py` — a two-pass duplicate-file
finder — together with theorems settling the specification claims.

Modelling conventions:
* A filesystem path is a `String`.  Byte contents are `List Nat`.
* The outcome of an external query that can fail (`os.path.getsize`, reading a
  file) is an `Option`.
* A digest value has an abstract type `δ` with decidable equality; the real
  program uses hex strings, which the model treats as opaque tokens.  The
  incremental hash accumulator of `hashlib` is modelled by the list of bytes
  fed to it; the final `hexdigest()` call is an abstract function
  `H : String → List Nat → δ` (algorithm name, accumulated bytes ↦ digest).
* Python dicts preserve insertion order; `dict.setdefault(k, []).append(v)` is
  modelled by `setdefaultAppend` on an association list whose keys appear in
  first-insertion order.
-/

/-- Kind of a non-directory entry yielded in the `filenames` component of an
`os.walk` triple.  `os.walk` puts every entry whose `is_dir()` is false into
`filenames`: regular files, symbolic links to non-directories (or broken
links), and special files (FIFOs, devices, sockets) alike. -/
inductive EntryKind where
  | regular : EntryKind
  | symlink : EntryKind
  | special : EntryKind
deriving DecidableEq

/-- A node of a directory tree, as `os.walk` classifies it.
* `entry n k`: a non-directory filesystem object (`is_dir()` false), which
  `os.walk` lists in `filenames`;
* `dir n cs`: a real directory, listed in `dirnames` and recursed into;
* `dirlink n`: a symbolic link to a directory — `entry.is_dir()` (which
  follows links) is true, so it is listed in `dirnames`, but with the default
  `followlinks=False` the walk does not descend into it, and it never appears
  in `filenames`. -/
inductive FSNode where
  | entry : String → EntryKind → FSNode
  | dir : String → List FSNode → FSNode
  | dirlink : String → FSNode

/-- `os.path.join(dirName, filename)` for the purposes of this model. -/
def pathJoin (base name : String) : String :=
  base ++ "/" ++ name

/-- The `(path, kind)` pairs contributed by the `filenames` component of one
directory's `os.walk` triple: its non-directory children, in order. -/
def filesOf (base : String) : List FSNode → List (String × EntryKind)
  | [] => []
  | FSNode.entry n k :: rest => (pathJoin base n, k) :: filesOf base rest
  | _ :: rest => filesOf base rest

mutual

/-- Flattened per-file iteration of `os.walk` (top-down, `followlinks=False`)
over the children `cs` of the directory `base`: first the non-directory
entries of `base` (its `filenames`), then, directory by directory, the same
recursively.  Symbolic links to directories (`dirlink`) are listed in
`dirnames` but not walked into and contribute nothing. -/
def walkDir (base : String) (cs : List FSNode) : List (String × EntryKind) :=
  filesOf base cs ++ walkSubdirs base cs
termination_by (sizeOf cs, 1)

/-- The recursive part of `walkDir`: walk each real subdirectory in order. -/
def walkSubdirs (base : String) : List FSNode → List (String × EntryKind)
  | [] => []
  | FSNode.dir n cs :: rest => walkDir (pathJoin base n) cs ++ walkSubdirs base rest
  | _ :: rest => walkSubdirs base rest
termination_by cs => (sizeOf cs, 0)

end

/-- Input to `find_duplicates`' pass 1, abstracting the state of the root
directory.
* `ok es`: the root can be enumerated, and the flattened per-file walk yields
  the entries `es` (each with the result `os.path.islink` would report);
* `deniedRoot`: `os.scandir` on the root raises `PermissionError`. -/
inductive WalkInput where
  | ok : List (String × EntryKind) → WalkInput
  | deniedRoot : WalkInput

/-- Observable behaviour of `os.walk(parent_folder)` (CPython semantics):
`os.walk` is called with its default `onerror=None`, so an `OSError` —
`PermissionError` included — raised by `scandir` on any directory, the root
itself included, is passed to `onerror` (a no-op) and that directory is
silently skipped.  A denied root therefore makes the walk yield no triples at
all; the exception never propagates to the caller. -/
def osWalk : WalkInput → List (String × EntryKind)
  | WalkInput.ok es => es
  | WalkInput.deniedRoot => []

/-- Lines 47–56 of `duplicates.py`: the `try:` block building `file_list`.
For each walked file the code does `os.path.join` (pure), `os.path.islink`
(which catches `OSError` internally and returns `False` on failure — it never
raises), and `list.append`.  Since `osWalk` never raises either (see `osWalk`),
no statement in the `try:` body can raise `PermissionError`, and the model
records this by always returning `Except.ok`; the `except PermissionError`
handler (`sys.exit(1)`) is unreachable. -/
def build_file_list (w : WalkInput) : Except Unit (List String) :=
  Except.ok (((osWalk w).filter (fun e => decide (e.2 ≠ EntryKind.symlink))).map Prod.fst)

/-- The `file_list` a walk over `es` produces: every walked entry except those
for which `os.path.islink` is true (line 51's `continue`). -/
def file_list (es : List (String × EntryKind)) : List String :=
  (es.filter (fun e => decide (e.2 ≠ EntryKind.symlink))).map Prod.fst

/-- Python `m.setdefault(k, []).append(v)` on an insertion-ordered dict
rendered as an association list: if `k` is present, append `v` to its list in
place; otherwise add the binding `(k, [v])` at the end. -/
def setdefaultAppend {κ β : Type} [DecidableEq κ] :
    List (κ × List β) → κ → β → List (κ × List β)
  | [], k, v => [(k, [v])]
  | (k', vs) :: rest, k, v =>
    if k = k' then (k', vs ++ [v]) :: rest
    else (k', vs) :: setdefaultAppend rest k v

/-- One iteration of a grouping loop: `setdefault`/`append` when the key is
present, skip (with a logged warning) when it is absent. -/
def groupStep {κ β : Type} [DecidableEq κ] (m : List (κ × List β))
    (x : Option κ × β) : List (κ × List β) :=
  match x.1 with
  | some k => setdefaultAppend m k x.2
  | none => m

/-- Fold a list of `(optional key, value)` pairs into an insertion-ordered
grouping dict, skipping pairs whose key is absent.  This is the shape of both
grouping loops of `find_duplicates`: pass 1 (lines 60–66, key = size, absent
when `os.path.getsize` fails) and the hash fold (lines 85–88, key = digest,
absent when hashing fails). -/
def groupPairs {κ β : Type} [DecidableEq κ] (xs : List (Option κ × β)) :
    List (κ × List β) :=
  xs.foldl groupStep []

/-- The keys of an association list, in order. -/
def keysOf {κ β : Type} (m : List (κ × List β)) : List κ :=
  m.map Prod.fst

/-- Dictionary lookup on the association list. -/
def lookupList {κ β : Type} [DecidableEq κ] :
    List (κ × List β) → κ → Option (List β)
  | [], _ => none
  | (k', vs) :: rest, k => if k = k' then some vs else lookupList rest k

/-- The values carrying key `k` in a `(optional key, value)` pair list, in
order: the list the grouping fold associates to `k`. -/
def valsFor {κ β : Type} [DecidableEq κ] (k : κ) (xs : List (Option κ × β)) :
    List β :=
  xs.filterMap (fun x => if x.1 = some k then some x.2 else none)

/-- Pass 1 (lines 58–66): `size_map`, grouping `file_list` by
`os.path.getsize`, skipping (with a logged warning) files whose size query
fails. -/
def size_map (sizeOf : String → Option Nat) (fl : List String) :
    List (Nat × List String) :=
  groupPairs (fl.map (fun p => (sizeOf p, p)))

/-- Line 68: `potential_duplicates = {size: paths for size, paths in
size_map.items() if len(paths) > 1}` (dict comprehensions preserve order). -/
def potential_duplicates (sm : List (Nat × List String)) :
    List (Nat × List String) :=
  sm.filter (fun g => decide (1 < g.2.length))

/-- Line 69: `total_to_hash = sum(len(paths) for paths in
potential_duplicates.values())`. -/
def total_to_hash (pd : List (Nat × List String)) : Nat :=
  (pd.map (fun g => g.2.length)).sum

/-- Lines 77–80: the `tasks` list — all paths of all retained size groups, in
size-group order, each group in its enumeration order. -/
def tasksOf (pd : List (Nat × List String)) : List String :=
  (pd.map Prod.snd).flatten

/-- Lines 85–88: fold the `(path, digest-or-None)` results into the `hashes`
dict, appending each successfully hashed path to its digest's list in result
order and dropping paths whose digest is `None` (`if file_hash:`). -/
def hashes {δ : Type} [DecidableEq δ] (results : List (String × Option δ)) :
    List (δ × List String) :=
  groupPairs (results.map (fun r => (r.2, r.1)))

/-- Lines 90–92: keep only the digests with more than one path
(`found_duplicates`). -/
def found_duplicates_of {δ : Type} [DecidableEq δ] (hs : List (δ × List String)) :
    List (δ × List String) :=
  hs.filter (fun g => decide (1 < g.2.length))

/-- The chunked read loop of `hashfile` (lines 21–24): `buf = file.read
(blocksize)` then `while len(buf) > 0: hasher.update(buf); buf = file.read
(blocksize)`.  `fed` is the byte sequence the incremental hasher has absorbed
so far, `rest` the bytes not yet read; `read(blocksize)` returns the next
`min(blocksize, len(rest))` bytes.  (With `blocksize = 0`, `read(0)` returns
the empty bytes object and the loop exits at once.) -/
def hashLoop (blocksize : Nat) (fed rest : List Nat) : List Nat :=
  if 0 < (rest.take blocksize).length then
    hashLoop blocksize (fed ++ rest.take blocksize) (rest.drop blocksize)
  else fed
termination_by rest.length
decreasing_by
  simp only [List.length_take, List.length_drop] at *
  omega

/-- `hashfile(path, blocksize, hash_algo)` (lines 16–31).  `contentOf path` is
the outcome of opening and reading the file: `some bytes` on success, `none`
when any exception occurs (`FileNotFoundError`, `PermissionError`, `OSError`,
or anything else — both `except` arms log and `return None`, so no exception
ever propagates, which the model reflects by being a total function into
`Option`).  On success the digest of the bytes fed chunk-by-chunk to the
hasher is returned. -/
def hashfile {δ : Type} (H : String → List Nat → δ)
    (contentOf : String → Option (List Nat)) (path : String)
    (blocksize : Nat) (hash_algo : String) : Option δ :=
  match contentOf path with
  | some content => some (H hash_algo (hashLoop blocksize [] content))
  | none => none

/-- `process_file_for_hashing` (lines 33–35): the pool worker, pairing the
path with `hashfile(path, hash_algo=hash_algo)` (so `blocksize` keeps its
default `65536`). -/
def process_file_for_hashing {δ : Type} (H : String → List Nat → δ)
    (contentOf : String → Option (List Nat)) (hash_algo : String)
    (path : String) : String × Option δ :=
  (path, hashfile H contentOf path 65536 hash_algo)

/-- Result of one `find_duplicates` call: either the process terminates via
`sys.exit(1)` (line 56) or the duplicate-group mapping is returned. -/
inductive ScanOutcome (δ : Type) where
  | exit1 : ScanOutcome δ
  | result : List (δ × List String) → ScanOutcome δ
deriving DecidableEq

/-- The deterministic core of `find_duplicates` after `file_list` is built:
pass 1 grouping, the singleton-size filter, the early `return {}` when there
is nothing to hash (lines 71–72), pass 2 (with `pool.starmap`, whose returned
list is in task submission order), the hash fold and the final singleton-digest
filter.  `digestOf p` is the digest `hashfile` reports for `p`. -/
def find_duplicates_core {δ : Type} [DecidableEq δ] (fl : List String)
    (sizeOf : String → Option Nat) (digestOf : String → Option δ) :
    List (δ × List String) :=
  let sm := size_map sizeOf fl
  let pd := potential_duplicates sm
  if total_to_hash pd = 0 then []
  else
    let tasks := tasksOf pd
    let results := tasks.map (fun p => (p, digestOf p))
    found_duplicates_of (hashes results)

/-- `find_duplicates(parent_folder, hash_algo)` (lines 37–94), with the pool
collapsed to its deterministic observable behaviour (see
`find_duplicates_sched` for the explicitly scheduled version). -/
def find_duplicates {δ : Type} [DecidableEq δ] (w : WalkInput)
    (sizeOf : String → Option Nat) (digestOf : String → Option δ) :
    ScanOutcome δ :=
  match build_file_list w with
  | Except.error _ => ScanOutcome.exit1
  | Except.ok fl => ScanOutcome.result (find_duplicates_core fl sizeOf digestOf)

/-- One completed task of the pool: the result of task `i` is written into
the result buffer at index `i` (an out-of-range index writes nothing; it
never arises for a completion order that covers exactly the task indices). -/
def poolStep {δ : Type} (digestOf : String → Option δ) (tasks : List String)
    (buf : List (Option (String × Option δ))) (i : Nat) :
    List (Option (String × Option δ)) :=
  match tasks.get? i with
  | some p => buf.set i (some (p, digestOf p))
  | none => buf

/-- The multiprocessing pool of lines 82–83, made explicit.  `pool.starmap`
hands one task per path to the workers; the workers finish in some
host-dependent completion order, modelled by `perm`, a permutation of the task
indices; each finished task's `(path, digest)` pair is stored in the result
buffer at that task's own index, and `starmap` returns the buffer — hence in
submission order — once every slot is filled. -/
def pool_run {δ : Type} (digestOf : String → Option δ) (tasks : List String)
    (perm : List Nat) : List (Option (String × Option δ)) :=
  perm.foldl (poolStep digestOf tasks) (List.replicate tasks.length none)

/-- `find_duplicates_core` with the hashing stage's nondeterminism explicit:
`nWorkers` is the pool size (`os.cpu_count()`), whose only effect in the real
system is which completion orders can arise — the theorems quantify over every
completion order `perm`, so over everything any pool size can produce.  The
slots of the result buffer are all filled once `perm` covers every index;
`reduceOption` reads the filled buffer back as the list of results. -/
def find_duplicates_core_sched {δ : Type} [DecidableEq δ] (fl : List String)
    (sizeOf : String → Option Nat) (digestOf : String → Option δ)
    (nWorkers : Nat) (perm : List Nat) : List (δ × List String) :=
  let _ := nWorkers
  let sm := size_map sizeOf fl
  let pd := potential_duplicates sm
  if total_to_hash pd = 0 then []
  else
    let tasks := tasksOf pd
    let results := (pool_run digestOf tasks perm).reduceOption
    found_duplicates_of (hashes results)

/-- `find_duplicates` with the scheduled hashing stage. -/
def find_duplicates_sched {δ : Type} [DecidableEq δ] (w : WalkInput)
    (sizeOf : String → Option Nat) (digestOf : String → Option δ)
    (nWorkers : Nat) (perm : List Nat) : ScanOutcome δ :=
  match build_file_list w with
  | Except.error _ => ScanOutcome.exit1
  | Except.ok fl =>
      ScanOutcome.result (find_duplicates_core_sched fl sizeOf digestOf nWorkers perm)

/-- Observable events of `delete_duplicates` (lines 115–147), in program
order.  `os.remove` failures are caught per file and only logged (lines
140–144), so they do not alter control flow and are not distinguished here.
`indexError` records the `IndexError` that `file_paths[0]` would raise on an
empty group (impossible for groups produced by `find_duplicates`), which would
propagate and abort the loop. -/
inductive DelEvent where
  | showGroup : String → List String → DelEvent
  | wouldDelete : DelEvent
  | prompt : DelEvent
  | remove : String → DelEvent
  | abortAll : DelEvent
  | indexError : DelEvent
deriving DecidableEq

/-- Python's `str.lower()` on the user's reply, written over the character
list so that it evaluates by kernel reduction. -/
def pyLower (s : String) : String :=
  String.mk (s.data.map Char.toLower)

/-- The `for file_paths in duplicate_groups.values():` loop of
`delete_duplicates` (lines 124–147).  `answers k` is the user's reply to the
`k`-th `input()` prompt (lowercased by the code via `.lower()`).  In dry-run
mode each group is announced and the loop continues without prompting; in live
mode the user is prompted, `'y'` removes every non-first member in order,
`'a'` aborts the remaining groups, anything else skips the group. -/
def delete_duplicates_go (dry_run : Bool) (answers : Nat → String) :
    List (List String) → Nat → List DelEvent
  | [], _ => []
  | [] :: _, _ => [DelEvent.indexError]
  | (original :: duplicates_to_delete) :: rest, k =>
    DelEvent.showGroup original duplicates_to_delete ::
      (if dry_run then
        DelEvent.wouldDelete :: delete_duplicates_go dry_run answers rest k
      else
        DelEvent.prompt ::
          (if pyLower (answers k) = "y" then
            duplicates_to_delete.map DelEvent.remove ++
              delete_duplicates_go dry_run answers rest (k + 1)
          else if pyLower (answers k) = "a" then [DelEvent.abortAll]
          else delete_duplicates_go dry_run answers rest (k + 1)))

/-- `delete_duplicates(duplicate_groups, dry_run)` (lines 115–147) as its
event trace.  The `if not duplicate_groups` guard only logs; the empty input
produces the empty trace either way. -/
def delete_duplicates (groups : List (List String)) (dry_run : Bool)
    (answers : Nat → String) : List DelEvent :=
  delete_duplicates_go dry_run answers groups 0

/-!
## Association-list lemmas

Characterisation of the insertion-ordered grouping dict built by
`setdefaultAppend` / `groupPairs`.
-/

theorem keysOf_setdefaultAppend {κ β : Type} [DecidableEq κ]
    (m : List (κ × List β)) (k : κ) (v : β) :
    keysOf (setdefaultAppend m k v) =
      if k ∈ keysOf m then keysOf m else keysOf m ++ [k] := by
  induction m with
  | nil => simp [setdefaultAppend, keysOf]
  | cons x rest ih =>
    obtain ⟨k₀, vs⟩ := x
    by_cases hk : k = k₀
    · subst hk
      simp [setdefaultAppend, keysOf]
    · simp only [setdefaultAppend, if_neg hk, keysOf, List.map_cons] at ih ⊢
      rw [ih]
      by_cases hmem : k ∈ List.map Prod.fst rest <;>
        simp [hmem, List.mem_cons, hk]

theorem lookupList_setdefaultAppend {κ β : Type} [DecidableEq κ]
    (m : List (κ × List β)) (k k' : κ) (v : β) :
    lookupList (setdefaultAppend m k v) k' =
      if k' = k then some ((lookupList m k).getD [] ++ [v])
      else lookupList m k' := by
  induction m with
  | nil =>
    by_cases h : k' = k <;> simp [setdefaultAppend, lookupList, h]
  | cons x rest ih =>
    obtain ⟨k₀, vs⟩ := x
    by_cases hk : k = k₀
    · subst hk
      by_cases h' : k' = k <;> simp [setdefaultAppend, lookupList, h']
    · by_cases h' : k' = k₀
      · subst h'
        have hne : ¬k' = k := fun h => hk (h ▸ rfl)
        simp [setdefaultAppend, hk, lookupList, hne]
      · simp [setdefaultAppend, hk, lookupList, h', ih]

theorem lookupList_eq_some_of_mem {κ β : Type} [DecidableEq κ]
    {m : List (κ × List β)} {k : κ} {vs : List β}
    (hmem : (k, vs) ∈ m) (hnd : (keysOf m).Nodup) :
    lookupList m k = some vs := by
  induction m with
  | nil => simp at hmem
  | cons x rest ih =>
    obtain ⟨k₀, vs₀⟩ := x
    simp only [keysOf, List.map_cons, List.nodup_cons] at hnd
    rcases List.mem_cons.1 hmem with h | h
    · obtain ⟨hk, hv⟩ := Prod.mk.injEq .. ▸ h
      injection h with h1 h2
      subst h1; subst h2
      simp [lookupList]
    · have hk : k ≠ k₀ := by
        intro he
        subst he
        exact hnd.1 (List.mem_map.2 ⟨(k, vs), h, rfl⟩)
      simp [lookupList, hk, ih h hnd.2]

theorem mem_of_lookupList_eq_some {κ β : Type} [DecidableEq κ]
    {m : List (κ × List β)} {k : κ} {vs : List β}
    (hl : lookupList m k = some vs) : (k, vs) ∈ m := by
  induction m with
  | nil => simp [lookupList] at hl
  | cons x rest ih =>
    obtain ⟨k₀, vs₀⟩ := x
    rw [lookupList] at hl
    split_ifs at hl with hk
    · subst hk
      injection hl with h
      subst h
      exact List.mem_cons_self _ _
    · exact List.mem_cons_of_mem _ (ih hl)

theorem keysOf_foldl_groupStep_nodup {κ β : Type} [DecidableEq κ]
    (xs : List (Option κ × β)) :
    ∀ m : List (κ × List β), (keysOf m).Nodup →
      (keysOf (xs.foldl groupStep m)).Nodup := by
  induction xs with
  | nil => intro m hm; simpa using hm
  | cons x xs ih =>
    intro m hm
    rw [List.foldl_cons]
    refine ih _ ?_
    cases hx : x.1 with
    | none => simpa [groupStep, hx] using hm
    | some k =>
      rw [groupStep, hx, keysOf_setdefaultAppend]
      by_cases hmem : k ∈ keysOf m
      · simpa [hmem] using hm
      · simp only [hmem, if_false]
        rw [List.nodup_append]
        refine ⟨hm, List.nodup_singleton _, ?_⟩
        intro a ha hb
        rw [List.mem_singleton] at hb
        exact hmem (hb ▸ ha)

theorem keysOf_groupPairs_nodup {κ β : Type} [DecidableEq κ]
    (xs : List (Option κ × β)) : (keysOf (groupPairs xs)).Nodup :=
  keysOf_foldl_groupStep_nodup xs [] (by simp [keysOf])

theorem lookupList_foldl_groupStep {κ β : Type} [DecidableEq κ] [DecidableEq β]
    (xs : List (Option κ × β)) (k : κ) :
    ∀ m : List (κ × List β),
      lookupList (xs.foldl groupStep m) k =
        if valsFor k xs = [] then lookupList m k
        else some ((lookupList m k).getD [] ++ valsFor k xs) := by
  induction xs with
  | nil => intro m; simp [valsFor]
  | cons x xs ih =>
    intro m
    rw [List.foldl_cons]
    cases hx : x.1 with
    | none =>
      have hv : valsFor k (x :: xs) = valsFor k xs := by
        simp [valsFor, List.filterMap_cons, hx]
      rw [hv, groupStep, hx]
      exact ih m
    | some k₀ =>
      by_cases hk : k₀ = k
      · subst hk
        have hv : valsFor k₀ (x :: xs) = x.2 :: valsFor k₀ xs := by
          simp [valsFor, List.filterMap_cons, hx]
        have hl : lookupList (setdefaultAppend m k₀ x.2) k₀ =
            some ((lookupList m k₀).getD [] ++ [x.2]) := by
          rw [lookupList_setdefaultAppend]; simp
        rw [hv, groupStep, hx, ih]
        by_cases hvs : valsFor k₀ xs = []
        · simp [hvs, hl]
        · simp [hvs, hl, List.append_assoc]
      · have hne : ¬k = k₀ := fun h => hk h.symm
        have hv : valsFor k (x :: xs) = valsFor k xs := by
          simp [valsFor, List.filterMap_cons, hx, hk]
        have hl : lookupList (setdefaultAppend m k₀ x.2) k = lookupList m k := by
          rw [lookupList_setdefaultAppend, if_neg hne]
        rw [hv, groupStep, hx, ih, hl]

theorem lookupList_groupPairs {κ β : Type} [DecidableEq κ] [DecidableEq β]
    (xs : List (Option κ × β)) (k : κ) :
    lookupList (groupPairs xs) k =
      if valsFor k xs = [] then none else some (valsFor k xs) := by
  rw [groupPairs, lookupList_foldl_groupStep]
  by_cases h : valsFor k xs = [] <;> simp [h, lookupList]

theorem mem_groupPairs_iff {κ β : Type} [DecidableEq κ] [DecidableEq β]
    {xs : List (Option κ × β)} {k : κ} {vs : List β} :
    (k, vs) ∈ groupPairs xs ↔ vs = valsFor k xs ∧ vs ≠ [] := by
  constructor
  · intro hmem
    have hl := lookupList_eq_some_of_mem hmem (keysOf_groupPairs_nodup xs)
    rw [lookupList_groupPairs] at hl
    by_cases h : valsFor k xs = []
    · simp [h] at hl
    · simp only [h, if_false, Option.some.injEq] at hl
      exact ⟨hl.symm, hl.symm ▸ h⟩
  · rintro ⟨rfl, hne⟩
    refine mem_of_lookupList_eq_some ?_
    rw [lookupList_groupPairs]
    simp [hne]

/-!
## Characterisation of the two grouping passes
-/

theorem mem_size_map_iff {sizeOf : String → Option Nat} {fl : List String}
    {s : Nat} {qs : List String} :
    (s, qs) ∈ size_map sizeOf fl ↔
      qs = fl.filterMap (fun p => if sizeOf p = some s then some p else none) ∧
        qs ≠ [] := by
  rw [size_map, mem_groupPairs_iff]
  have : valsFor s (fl.map fun p => (sizeOf p, p)) =
      fl.filterMap (fun p => if sizeOf p = some s then some p else none) := by
    rw [valsFor, List.filterMap_map]
    rfl
  rw [this]

theorem mem_hashes_iff {δ : Type} [DecidableEq δ]
    {results : List (String × Option δ)} {h : δ} {ps : List String} :
    (h, ps) ∈ hashes results ↔
      ps = results.filterMap (fun r => if r.2 = some h then some r.1 else none) ∧
        ps ≠ [] := by
  rw [hashes, mem_groupPairs_iff]
  have : valsFor h (results.map fun r => (r.2, r.1)) =
      results.filterMap (fun r => if r.2 = some h then some r.1 else none) := by
    rw [valsFor, List.filterMap_map]
    rfl
  rw [this]

theorem mem_filterMap_if {α : Type} (p : α → Prop) [DecidablePred p]
    (l : List α) (a : α) :
    a ∈ l.filterMap (fun x => if p x then some x else none) ↔ a ∈ l ∧ p a := by
  rw [List.mem_filterMap]
  constructor
  · rintro ⟨b, hb, hba⟩
    by_cases hp : p b
    · rw [if_pos hp, Option.some.injEq] at hba
      exact hba ▸ ⟨hb, hp⟩
    · rw [if_neg hp] at hba
      cases hba
  · rintro ⟨ha, hp⟩
    exact ⟨a, ha, if_pos hp⟩

theorem filterMap_if_eq_filter {α : Type} (p : α → Prop) [DecidablePred p]
    (l : List α) :
    l.filterMap (fun x => if p x then some x else none) =
      l.filter (fun x => decide (p x)) := by
  induction l with
  | nil => rfl
  | cons a l ih => by_cases h : p a <;> simp [List.filterMap_cons, h, ih]

theorem size_map_mem_path {sizeOf : String → Option Nat} {fl : List String}
    {s : Nat} {qs : List String} {p : String}
    (hg : (s, qs) ∈ size_map sizeOf fl) (hp : p ∈ qs) :
    sizeOf p = some s ∧ p ∈ fl := by
  obtain ⟨hq, -⟩ := mem_size_map_iff.1 hg
  subst hq
  obtain ⟨hmem, hs⟩ := (mem_filterMap_if (fun p => sizeOf p = some s) fl p).1 hp
  exact ⟨hs, hmem⟩

theorem mem_potential_duplicates_iff {sm : List (Nat × List String)}
    {g : Nat × List String} :
    g ∈ potential_duplicates sm ↔ g ∈ sm ∧ 1 < g.2.length := by
  rw [potential_duplicates, List.mem_filter]
  simp

theorem mem_tasksOf_iff {pd : List (Nat × List String)} {p : String} :
    p ∈ tasksOf pd ↔ ∃ g ∈ pd, p ∈ g.2 := by
  rw [tasksOf, List.mem_flatten]
  constructor
  · rintro ⟨l, hl, hp⟩
    obtain ⟨g, hg, rfl⟩ := List.mem_map.1 hl
    exact ⟨g, hg, hp⟩
  · rintro ⟨g, hg, hp⟩
    exact ⟨g.2, List.mem_map.2 ⟨g, hg, rfl⟩, hp⟩

theorem potential_duplicates_eq_nil_of_total_zero
    {pd : List (Nat × List String)}
    (hall : ∀ g ∈ pd, 1 < g.2.length) (h0 : total_to_hash pd = 0) :
    pd = [] := by
  cases pd with
  | nil => rfl
  | cons g pd =>
    exfalso
    rw [total_to_hash, List.map_cons, List.sum_cons] at h0
    have := hall g (List.mem_cons_self _ _)
    omega

/-- The early `return {}` of lines 71–72 agrees with running pass 2 on an
empty task list, so the core is the composition of the stages without a case
split. -/
theorem find_duplicates_core_eq {δ : Type} [DecidableEq δ]
    (fl : List String) (sizeOf : String → Option Nat)
    (digestOf : String → Option δ) :
    find_duplicates_core fl sizeOf digestOf =
      found_duplicates_of (hashes
        ((tasksOf (potential_duplicates (size_map sizeOf fl))).map
          (fun p => (p, digestOf p)))) := by
  rw [find_duplicates_core]
  by_cases h0 : total_to_hash (potential_duplicates (size_map sizeOf fl)) = 0
  · have hpd : potential_duplicates (size_map sizeOf fl) = [] :=
      potential_duplicates_eq_nil_of_total_zero
        (fun g hg => (mem_potential_duplicates_iff.1 hg).2) h0
    simp [h0, hpd, tasksOf, hashes, groupPairs, found_duplicates_of]
  · simp [h0]

/-- Membership in a final duplicate group, unfolded down to the task list:
the group of digest `h` is exactly the tasks whose digest came back `some h`,
in task order, and only groups with two or more members survive. -/
theorem mem_find_duplicates_core_iff {δ : Type} [DecidableEq δ]
    {fl : List String} {sizeOf : String → Option Nat}
    {digestOf : String → Option δ} {h : δ} {ps : List String} :
    (h, ps) ∈ find_duplicates_core fl sizeOf digestOf ↔
      ps = (tasksOf (potential_duplicates (size_map sizeOf fl))).filterMap
          (fun p => if digestOf p = some h then some p else none) ∧
        1 < ps.length := by
  rw [find_duplicates_core_eq, found_duplicates_of, List.mem_filter]
  rw [mem_hashes_iff]
  have : ((tasksOf (potential_duplicates (size_map sizeOf fl))).map
        (fun p => (p, digestOf p))).filterMap
        (fun r => if r.2 = some h then some r.1 else none) =
      (tasksOf (potential_duplicates (size_map sizeOf fl))).filterMap
        (fun p => if digestOf p = some h then some p else none) := by
    rw [List.filterMap_map]
    rfl
  rw [this]
  constructor
  · rintro ⟨⟨hps, -⟩, hlen⟩
    exact ⟨hps, by simpa using hlen⟩
  · rintro ⟨hps, hlen⟩
    refine ⟨⟨hps, ?_⟩, by simpa using hlen⟩
    intro hnil
    rw [hnil] at hlen
    simp at hlen

/-!
## The digest engine
-/

/-- With a positive block size the read loop feeds the whole remaining
content to the hasher. -/
theorem hashLoop_of_pos (bs : Nat) (hbs : 0 < bs) (rest fed : List Nat) :
    hashLoop bs fed rest = fed ++ rest := by
  rw [hashLoop]
  by_cases h : 0 < (rest.take bs).length
  · rw [if_pos h, hashLoop_of_pos bs hbs (rest.drop bs) (fed ++ rest.take bs),
      List.append_assoc, List.take_append_drop]
  · rw [if_neg h]
    have hnil : rest = [] := by
      rw [List.length_take] at h
      have : rest.length = 0 := by omega
      exact List.eq_nil_of_length_eq_zero this
    simp [hnil]
termination_by rest.length
decreasing_by
  simp only [List.length_take, List.length_drop] at *
  omega

/-- With block size `0`, `file.read(0)` returns the empty bytes object at
once, so the loop body never runs and the hasher sees nothing. -/
theorem hashLoop_zero (fed rest : List Nat) : hashLoop 0 fed rest = fed := by
  rw [hashLoop]
  simp

/-- `hashfile` with a positive block size: the digest of the full content on
success, `None` on any read failure — and, being a total function, it can
propagate no exception. -/
theorem hashfile_eq {δ : Type} (H : String → List Nat → δ)
    (contentOf : String → Option (List Nat)) (path : String)
    (bs : Nat) (algo : String) (hbs : 0 < bs) :
    hashfile H contentOf path bs algo =
      (contentOf path).map (fun c => H algo c) := by
  rw [hashfile]
  cases hc : contentOf path with
  | none => rfl
  | some c =>
    show some (H algo (hashLoop bs [] c)) = (some c).map (fun c => H algo c)
    rw [Option.map_some', hashLoop_of_pos bs hbs c [], List.nil_append]

/-!
## The pool: `starmap` returns results in submission order
-/

theorem length_poolStep {δ : Type} (digestOf : String → Option δ)
    (tasks : List String) (buf : List (Option (String × Option δ))) (i : Nat) :
    (poolStep digestOf tasks buf i).length = buf.length := by
  rw [poolStep]
  cases tasks.get? i <;> simp

theorem length_foldl_poolStep {δ : Type} (digestOf : String → Option δ)
    (tasks : List String) (perm : List Nat) :
    ∀ buf : List (Option (String × Option δ)),
      (perm.foldl (poolStep digestOf tasks) buf).length = buf.length := by
  induction perm with
  | nil => intro buf; rfl
  | cons i perm ih =>
    intro buf
    rw [List.foldl_cons, ih, length_poolStep]

theorem foldl_poolStep_get? {δ : Type} (digestOf : String → Option δ)
    (tasks : List String) (perm : List Nat) :
    ∀ buf : List (Option (String × Option δ)), buf.length = tasks.length →
      ∀ i : Nat,
        (perm.foldl (poolStep digestOf tasks) buf).get? i =
          if i ∈ perm ∧ i < tasks.length then
            (tasks.get? i).map (fun p => some (p, digestOf p))
          else buf.get? i := by
  induction perm with
  | nil =>
    intro buf hlen i
    simp
  | cons j perm ih =>
    intro buf hlen i
    rw [List.foldl_cons]
    have hlen' : (poolStep digestOf tasks buf j).length = tasks.length := by
      rw [length_poolStep]; exact hlen
    rw [ih _ hlen' i]
    by_cases hrest : i ∈ perm ∧ i < tasks.length
    · rw [if_pos hrest, if_pos ⟨List.mem_cons_of_mem _ hrest.1, hrest.2⟩]
    · rw [if_neg hrest]
      by_cases hij : i = j
      · subst hij
        by_cases hi : i < tasks.length
        · have hp : tasks.get? i = some (tasks.get ⟨i, hi⟩) := List.get?_eq_get hi
          rw [if_pos ⟨List.mem_cons_self _ _, hi⟩]
          simp only [poolStep, hp]
          rw [List.get?_set_eq_of_lt _ (by rw [hlen]; exact hi)]
          rfl
        · have hnone : tasks.get? i = none := List.get?_eq_none.2 (by omega)
          simp only [poolStep, hnone]
          rw [if_neg (fun hc => hi hc.2)]
      · have hnot : ¬(i ∈ j :: perm ∧ i < tasks.length) := by
          rintro ⟨hmem, hi⟩
          rcases List.mem_cons.1 hmem with h | h
          · exact hij h
          · exact hrest ⟨h, hi⟩
        rw [if_neg hnot, poolStep]
        cases tasks.get? j with
        | none => rfl
        | some p => exact List.get?_set_ne _ _ (fun h => hij h.symm)

/-- When the completion order covers the task indices, the buffer `starmap`
returns is the results in submission order — regardless of which completion
order it was. -/
theorem pool_run_eq_map {δ : Type} (digestOf : String → Option δ)
    (tasks : List String) (perm : List Nat)
    (hperm : perm.Perm (List.range tasks.length)) :
    pool_run digestOf tasks perm =
      tasks.map (fun p => some (p, digestOf p)) := by
  apply List.ext_get?
  intro i
  rw [pool_run, foldl_poolStep_get? digestOf tasks perm _ (by simp) i]
  by_cases hi : i < tasks.length
  · have hmem : i ∈ perm := hperm.mem_iff.2 (List.mem_range.2 hi)
    rw [if_pos ⟨hmem, hi⟩, List.get?_map]
  · have h₁ : (List.replicate tasks.length (none : Option (String × Option δ))).get? i =
        none := List.get?_eq_none.2 (by simp only [List.length_replicate]; omega)
    have h₂ : (tasks.map (fun p => some (p, digestOf p))).get? i = none :=
      List.get?_eq_none.2 (by simp only [List.length_map]; omega)
    rw [if_neg (fun hc => hi hc.2), h₁, h₂]

theorem reduceOption_map_some {α β : Type} (l : List α) (f : α → β) :
    (l.map (fun a => some (f a))).reduceOption = l.map f := by
  induction l with
  | nil => rfl
  | cons a l ih =>
    simp only [List.reduceOption, List.map_cons, List.filterMap_cons] at ih ⊢
    rw [ih]
    rfl

/-- Scheduling collapse: for every completion order covering the tasks (hence
for every pool size), the scheduled scan equals the order-collapsed scan. -/
theorem find_duplicates_core_sched_eq {δ : Type} [DecidableEq δ]
    (fl : List String) (sizeOf : String → Option Nat)
    (digestOf : String → Option δ) (nWorkers : Nat) (perm : List Nat)
    (hperm : perm.Perm
      (List.range (tasksOf (potential_duplicates (size_map sizeOf fl))).length)) :
    find_duplicates_core_sched fl sizeOf digestOf nWorkers perm =
      find_duplicates_core fl sizeOf digestOf := by
  rw [find_duplicates_core_sched, find_duplicates_core]
  by_cases h0 : total_to_hash (potential_duplicates (size_map sizeOf fl)) = 0
  · simp [h0]
  · simp only [h0, if_false,
      pool_run_eq_map digestOf
        (tasksOf (potential_duplicates (size_map sizeOf fl))) perm hperm,
      reduceOption_map_some]

/-!
## Provenance of a duplicate group
-/

theorem flatten_eq_mem_of_pairwise {γ : Type} {L : List (List γ)}
    (hp : L.Pairwise (fun a b => a = [] ∨ b = [])) (hne : L.flatten ≠ []) :
    ∃ g ∈ L, L.flatten = g := by
  induction L with
  | nil => simp at hne
  | cons a L ih =>
    rw [List.pairwise_cons] at hp
    obtain ⟨h1, h2⟩ := hp
    by_cases ha : a = []
    · subst ha
      rw [List.flatten_cons, List.nil_append] at hne ⊢
      obtain ⟨g, hg, he⟩ := ih h2 hne
      exact ⟨g, List.mem_cons_of_mem _ hg, he⟩
    · have hall : ∀ b ∈ L, b = [] := fun b hb => (h1 b hb).resolve_left ha
      have hfl : L.flatten = [] := List.flatten_eq_nil_iff.2 hall
      exact ⟨a, List.mem_cons_self _ _,
        by rw [List.flatten_cons, hfl, List.append_nil]⟩

/-- Facts about any member of any returned duplicate group: its digest is the
group key, its size query succeeded, and it came from the walked file list. -/
theorem core_member_facts {δ : Type} [DecidableEq δ] {fl : List String}
    {sizeOf : String → Option Nat} {digestOf : String → Option δ} {h : δ}
    {ps : List String} {p : String}
    (hg : (h, ps) ∈ find_duplicates_core fl sizeOf digestOf) (hp : p ∈ ps) :
    digestOf p = some h ∧ (∃ s, sizeOf p = some s) ∧ p ∈ fl := by
  obtain ⟨hps, -⟩ := mem_find_duplicates_core_iff.1 hg
  rw [hps] at hp
  obtain ⟨hmem, hd⟩ := (mem_filterMap_if (fun p => digestOf p = some h) _ p).1 hp
  obtain ⟨⟨s, qs⟩, hgrp, hpq⟩ := mem_tasksOf_iff.1 hmem
  obtain ⟨hsm, -⟩ := mem_potential_duplicates_iff.1 hgrp
  obtain ⟨hsize, hfl⟩ := size_map_mem_path hsm hpq
  exact ⟨hd, ⟨s, hsize⟩, hfl⟩

/-- When equal digests force equal sizes (the ideal-hash reading the spec
adopts), every returned duplicate group is carved out of a single size group:
it is exactly the matching-digest subsequence of that size group, in the size
group's enumeration order. -/
theorem core_group_single_size {δ : Type} [DecidableEq δ] {fl : List String}
    {sizeOf : String → Option Nat} {digestOf : String → Option δ}
    (hcomp : ∀ p q sp sq d, sizeOf p = some sp → sizeOf q = some sq →
      digestOf p = some d → digestOf q = some d → sp = sq)
    {h : δ} {ps : List String}
    (hg : (h, ps) ∈ find_duplicates_core fl sizeOf digestOf) :
    ∃ s qs, (s, qs) ∈ size_map sizeOf fl ∧
      ps = qs.filterMap (fun p => if digestOf p = some h then some p else none) ∧
      ps.Sublist qs := by
  obtain ⟨hps, hlen⟩ := mem_find_duplicates_core_iff.1 hg
  have hnil : ps ≠ [] := by
    intro hn
    rw [hn] at hlen
    simp at hlen
  have hflat : ps = ((potential_duplicates (size_map sizeOf fl)).map
      (fun g => g.2.filterMap
        (fun p => if digestOf p = some h then some p else none))).flatten := by
    rw [hps, tasksOf, List.filterMap_flatten, List.map_map]
    rfl
  have hkeys : (keysOf (size_map sizeOf fl)).Nodup := keysOf_groupPairs_nodup _
  have hpw1 : (size_map sizeOf fl).Pairwise (fun g₁ g₂ => g₁.1 ≠ g₂.1) := by
    rw [keysOf] at hkeys
    exact List.pairwise_map.1 hkeys
  have hpw2 : (potential_duplicates (size_map sizeOf fl)).Pairwise
      (fun g₁ g₂ => g₁.1 ≠ g₂.1) :=
    List.Pairwise.sublist (List.filter_sublist _) hpw1
  have hpw3 : (potential_duplicates (size_map sizeOf fl)).Pairwise
      (fun g₁ g₂ =>
        g₁.2.filterMap (fun p => if digestOf p = some h then some p else none) = [] ∨
        g₂.2.filterMap (fun p => if digestOf p = some h then some p else none) = []) := by
    refine List.Pairwise.imp_of_mem ?_ hpw2
    rintro ⟨s₁, qs₁⟩ ⟨s₂, qs₂⟩ hm₁ hm₂ hne
    by_contra hcon
    push_neg at hcon
    obtain ⟨hne₁, hne₂⟩ := hcon
    obtain ⟨p, hp⟩ := List.exists_mem_of_ne_nil _ hne₁
    obtain ⟨q, hq⟩ := List.exists_mem_of_ne_nil _ hne₂
    obtain ⟨hp₁, hdp⟩ := (mem_filterMap_if (fun p => digestOf p = some h) _ p).1 hp
    obtain ⟨hq₁, hdq⟩ := (mem_filterMap_if (fun p => digestOf p = some h) _ q).1 hq
    have hsm₁ : (s₁, qs₁) ∈ size_map sizeOf fl := (mem_potential_duplicates_iff.1 hm₁).1
    have hsm₂ : (s₂, qs₂) ∈ size_map sizeOf fl := (mem_potential_duplicates_iff.1 hm₂).1
    obtain ⟨hsp, -⟩ := size_map_mem_path hsm₁ hp₁
    obtain ⟨hsq, -⟩ := size_map_mem_path hsm₂ hq₁
    exact hne (hcomp p q s₁ s₂ h hsp hsq hdp hdq)
  have hpw4 : ((potential_duplicates (size_map sizeOf fl)).map
      (fun g => g.2.filterMap
        (fun p => if digestOf p = some h then some p else none))).Pairwise
      (fun a b => a = [] ∨ b = []) := List.pairwise_map.2 hpw3
  obtain ⟨g, hgmem, hge⟩ := flatten_eq_mem_of_pairwise hpw4 (hflat ▸ hnil)
  obtain ⟨g₀, hg₀, rfl⟩ := List.mem_map.1 hgmem
  obtain ⟨s₀, qs₀⟩ := g₀
  have hsm : (s₀, qs₀) ∈ size_map sizeOf fl :=
    (mem_potential_duplicates_iff.1 hg₀).1
  refine ⟨s₀, qs₀, hsm, ?_, ?_⟩
  · rw [hflat, hge]
  · rw [hflat, hge,
      filterMap_if_eq_filter (fun p => digestOf p = some h) qs₀]
    exact List.filter_sublist _

/-!
## The walk: classification of entries
-/

theorem mem_file_list_iff {es : List (String × EntryKind)} {p : String} :
    p ∈ file_list es ↔ ∃ k, (p, k) ∈ es ∧ k ≠ EntryKind.symlink := by
  rw [file_list]
  constructor
  · intro hp
    obtain ⟨⟨p', k⟩, hmem, rfl⟩ := List.mem_map.1 hp
    rw [List.mem_filter] at hmem
    exact ⟨k, hmem.1, by simpa using hmem.2⟩
  · rintro ⟨k, hmem, hk⟩
    exact List.mem_map.2 ⟨(p, k), List.mem_filter.2 ⟨hmem, by simpa using hk⟩, rfl⟩

theorem mem_filesOf_of_entry {base n : String} {k : EntryKind}
    {cs : List FSNode} (hmem : FSNode.entry n k ∈ cs) :
    (pathJoin base n, k) ∈ filesOf base cs := by
  induction cs with
  | nil => cases hmem
  | cons c cs ih =>
    rcases List.mem_cons.1 hmem with h | h
    · rw [← h]
      simp [filesOf]
    · cases c with
      | entry n' k' =>
        simp only [filesOf]
        exact List.mem_cons_of_mem _ (ih h)
      | dir n' cs' =>
        simp only [filesOf]
        exact ih h
      | dirlink n' =>
        simp only [filesOf]
        exact ih h

theorem mem_walkDir_of_filesOf {base : String} {cs : List FSNode}
    {x : String × EntryKind} (hx : x ∈ filesOf base cs) :
    x ∈ walkDir base cs := by
  rw [walkDir]
  exact List.mem_append_left _ hx

theorem mem_walkDir_of_subdir {base n : String} {cs rest : List FSNode}
    {x : String × EntryKind} (hx : x ∈ walkDir (pathJoin base n) cs) :
    x ∈ walkDir base (FSNode.dir n cs :: rest) := by
  rw [walkDir]
  refine List.mem_append_right _ ?_
  simp only [walkSubdirs]
  exact List.mem_append_left _ hx

/-!
## The deletion phase
-/

/-- In dry-run mode the loop only announces: each (nonempty) group
contributes its announcement events and nothing else. -/
theorem delete_go_dry_eq (answers : Nat → String) :
    ∀ (groups : List (List String)), (∀ g ∈ groups, g ≠ []) → ∀ k,
      delete_duplicates_go true answers groups k =
        (groups.map (fun g => [DelEvent.showGroup g.headI g.tail,
          DelEvent.wouldDelete])).flatten := by
  intro groups
  induction groups with
  | nil => intro _ _; rfl
  | cons g rest ih =>
    intro hne k
    cases g with
    | nil => exact absurd rfl (hne [] (List.mem_cons_self _ _))
    | cons o ds =>
      rw [delete_duplicates_go]
      rw [if_pos rfl, ih (fun g hg => hne g (List.mem_cons_of_mem _ hg)) k]
      simp [List.headI, List.tail]

/-- Every path ever handed to `os.remove` is a non-first member of its
group, in every mode and for every sequence of user responses. -/
theorem delete_go_remove_mem (dry_run : Bool) (answers : Nat → String)
    (p : String) :
    ∀ (groups : List (List String)) (k : Nat),
      DelEvent.remove p ∈ delete_duplicates_go dry_run answers groups k →
        ∃ g ∈ groups, ∃ o ds, g = o :: ds ∧ p ∈ ds := by
  intro groups
  induction groups with
  | nil => intro k hmem; cases hmem
  | cons g rest ih =>
    intro k hmem
    cases g with
    | nil =>
      rw [delete_duplicates_go] at hmem
      rcases List.mem_cons.1 hmem with h | h
      · cases h
      · cases h
    | cons o ds =>
      rw [delete_duplicates_go] at hmem
      rcases List.mem_cons.1 hmem with h | h
      · cases h
      · cases dry_run with
        | true =>
          rw [if_pos rfl] at h
          rcases List.mem_cons.1 h with h' | h'
          · cases h'
          · obtain ⟨g', hg', hrep⟩ := ih k h'
            exact ⟨g', List.mem_cons_of_mem _ hg', hrep⟩
        | false =>
          rw [if_neg Bool.false_ne_true] at h
          rcases List.mem_cons.1 h with h' | h'
          · cases h'
          · by_cases hy : pyLower (answers k) = "y"
            · rw [if_pos hy] at h'
              rcases List.mem_append.1 h' with h'' | h''
              · obtain ⟨q, hq, he⟩ := List.mem_map.1 h''
                injection he with he
                exact ⟨o :: ds, List.mem_cons_self _ _, o, ds, rfl, he ▸ hq⟩
              · obtain ⟨g', hg', hrep⟩ := ih (k + 1) h''
                exact ⟨g', List.mem_cons_of_mem _ hg', hrep⟩
            · rw [if_neg hy] at h'
              by_cases ha : pyLower (answers k) = "a"
              · rw [if_pos ha] at h'
                rcases List.mem_cons.1 h' with h'' | h''
                · cases h''
                · cases h''
              · rw [if_neg ha] at h'
                obtain ⟨g', hg', hrep⟩ := ih (k + 1) h'
                exact ⟨g', List.mem_cons_of_mem _ hg', hrep⟩

/-!
## Claim theorems
-/

theorem find_duplicates_ok_eq {δ : Type} [DecidableEq δ]
    (es : List (String × EntryKind)) (sizeOf : String → Option Nat)
    (digestOf : String → Option δ) :
    find_duplicates (WalkInput.ok es) sizeOf digestOf =
      ScanOutcome.result (find_duplicates_core (file_list es) sizeOf digestOf) :=
  rfl

/-- Claim C3 (code evaluation): the claim says a root directory whose
enumeration is denied makes the scan abort with a fatal error and non-zero
exit.  On the code, `os.walk` (default `onerror=None`) swallows the
`PermissionError` raised by `scandir` on the root and yields nothing, and no
other statement of the `try:` block can raise, so `find_duplicates` never
executes `sys.exit(1)`: it returns the empty mapping and the program goes on
to report "no duplicates" and exit 0.  The `except PermissionError` handler
is dead code. -/
theorem C3_denied_root_returns_empty {δ : Type} [DecidableEq δ]
    (sizeOf : String → Option Nat) (digestOf : String → Option δ) :
    find_duplicates WalkInput.deniedRoot sizeOf digestOf =
        ScanOutcome.result ([] : List (δ × List String)) ∧
      find_duplicates WalkInput.deniedRoot sizeOf digestOf ≠
        ScanOutcome.exit1 := by
  have h : find_duplicates WalkInput.deniedRoot sizeOf digestOf =
      ScanOutcome.result ([] : List (δ × List String)) := rfl
  refine ⟨h, ?_⟩
  rw [h]
  intro hc
  cases hc

/-- Claim C6: exactly the paths belonging to size groups with two or more
members are submitted to the hashing stage — every singleton size group is
dropped before hashing, and every path of a multi-member size group is
hashed.  (`tasksOf (potential_duplicates (size_map …))` is the `tasks` list
handed to `pool.starmap`.) -/
theorem C6_exactly_multi_size_groups_hashed (es : List (String × EntryKind))
    (sizeOf : String → Option Nat) (p : String) :
    p ∈ tasksOf (potential_duplicates (size_map sizeOf (file_list es))) ↔
      ∃ s qs, (s, qs) ∈ size_map sizeOf (file_list es) ∧ p ∈ qs ∧
        2 ≤ qs.length := by
  rw [mem_tasksOf_iff]
  constructor
  · rintro ⟨⟨s, qs⟩, hg, hp⟩
    obtain ⟨hsm, hlen⟩ := mem_potential_duplicates_iff.1 hg
    have hlen' : 1 < qs.length := hlen
    exact ⟨s, qs, hsm, hp, by omega⟩
  · rintro ⟨s, qs, hsm, hp, hlen⟩
    refine ⟨(s, qs), mem_potential_duplicates_iff.2 ⟨hsm, ?_⟩, hp⟩
    show 1 < qs.length
    omega

/-- Claim C7: in the mapping returned by `find_duplicates`, every group has
at least two member paths; every member's digest equals the group key, so a
path whose hash came back absent (`None`) is never grouped. -/
theorem C7_groups_have_two_members_same_digest {δ : Type} [DecidableEq δ]
    (es : List (String × EntryKind)) (sizeOf : String → Option Nat)
    (digestOf : String → Option δ) (groups : List (δ × List String))
    (hrun : find_duplicates (WalkInput.ok es) sizeOf digestOf =
      ScanOutcome.result groups)
    (h : δ) (ps : List String) (hg : (h, ps) ∈ groups) :
    2 ≤ ps.length ∧ (∀ p ∈ ps, digestOf p = some h) ∧
      ∀ p, digestOf p = none → p ∉ ps := by
  rw [find_duplicates_ok_eq] at hrun
  injection hrun with hrun
  rw [← hrun] at hg
  obtain ⟨hps, hlen⟩ := mem_find_duplicates_core_iff.1 hg
  have hdig : ∀ p ∈ ps, digestOf p = some h := by
    intro p hp
    rw [hps] at hp
    exact ((mem_filterMap_if (fun p => digestOf p = some h) _ p).1 hp).2
  refine ⟨by omega, hdig, ?_⟩
  intro p hnone hp
  rw [hdig p hp] at hnone
  cases hnone

/-- Witness for C7 at a concrete scan: two regular files of equal size and
equal digest form one group of two. -/
theorem C7_groups_have_two_members_same_digest_witness :
    2 ≤ (["a", "b"] : List String).length ∧
      (∀ p ∈ (["a", "b"] : List String),
        (fun _ : String => some (5 : Nat)) p = some 5) ∧
      ∀ p : String, (fun _ : String => some (5 : Nat)) p = none →
        p ∉ (["a", "b"] : List String) :=
  C7_groups_have_two_members_same_digest
    [("a", EntryKind.regular), ("b", EntryKind.regular)]
    (fun _ => some 1) (fun _ => some 5) [(5, ["a", "b"])] (by decide)
    5 ["a", "b"] (by decide)

/-- Claim C9: with the dry-run flag set, the deletion phase performs no
filesystem mutation and issues no per-group confirmation prompt — no
`os.remove` call and no `input()` call appear in the trace, which consists
exactly of each group's announcement of what would be deleted. -/
theorem C9_dry_run_only_announces (groups : List (List String))
    (answers : Nat → String) (hne : ∀ g ∈ groups, g ≠ []) :
    (∀ p : String, DelEvent.remove p ∉ delete_duplicates groups true answers) ∧
      DelEvent.prompt ∉ delete_duplicates groups true answers ∧
      delete_duplicates groups true answers =
        (groups.map (fun g => [DelEvent.showGroup g.headI g.tail,
          DelEvent.wouldDelete])).flatten := by
  have he : delete_duplicates groups true answers =
      (groups.map (fun g => [DelEvent.showGroup g.headI g.tail,
        DelEvent.wouldDelete])).flatten :=
    delete_go_dry_eq answers groups hne 0
  refine ⟨?_, ?_, he⟩
  · intro p hp
    rw [he] at hp
    obtain ⟨l, hl, hmeml⟩ := List.mem_flatten.1 hp
    obtain ⟨g, hg, rfl⟩ := List.mem_map.1 hl
    rcases List.mem_cons.1 hmeml with h | h
    · cases h
    · rcases List.mem_cons.1 h with h' | h'
      · cases h'
      · cases h'
  · intro hp
    rw [he] at hp
    obtain ⟨l, hl, hmeml⟩ := List.mem_flatten.1 hp
    obtain ⟨g, hg, rfl⟩ := List.mem_map.1 hl
    rcases List.mem_cons.1 hmeml with h | h
    · cases h
    · rcases List.mem_cons.1 h with h' | h'
      · cases h'
      · cases h'

/-- Witness for C9: one group of two files, dry run. -/
theorem C9_dry_run_only_announces_witness :
    (∀ p : String,
        DelEvent.remove p ∉ delete_duplicates [["a", "b"]] true (fun _ => "x")) ∧
      DelEvent.prompt ∉ delete_duplicates [["a", "b"]] true (fun _ => "x") ∧
      delete_duplicates [["a", "b"]] true (fun _ => "x") =
        (([["a", "b"]] : List (List String)).map
          (fun g => [DelEvent.showGroup g.headI g.tail,
            DelEvent.wouldDelete])).flatten :=
  C9_dry_run_only_announces [["a", "b"]] (fun _ => "x") (by decide)

/-- Claim C10: in every mode and for every sequence of user responses, only
second-and-later members of a duplicate group are ever passed to `os.remove`;
the first path of a group is never removed. -/
theorem C10_only_tail_members_removed (groups : List (List String))
    (dry_run : Bool) (answers : Nat → String) (p : String)
    (hmem : DelEvent.remove p ∈ delete_duplicates groups dry_run answers) :
    ∃ g ∈ groups, ∃ o ds, g = o :: ds ∧ p ∈ ds :=
  delete_go_remove_mem dry_run answers p groups 0 hmem

/-- Witness for C10: live mode, user confirms; the removed path "b" is a
non-first member of its group. -/
theorem C10_only_tail_members_removed_witness :
    ∃ g ∈ ([["a", "b"]] : List (List String)), ∃ o ds, g = o :: ds ∧ "b" ∈ ds :=
  C10_only_tail_members_removed [["a", "b"]] false (fun _ => "y") "b" (by decide)

/-- Claim C5 counterexample: the claim quantifies over **every** chunk size,
but at chunk size 0 Python's `file.read(0)` returns empty bytes and the
`while len(buf) > 0` loop never runs, so on a readable non-empty file the
code returns the digest of the *empty* content — neither the digest of the
full content nor `None`.  Here the digest function is emptiness of the bytes
fed: the code returns `some true`, the full-content digest is `false`. -/
theorem C5_counterexample :
    hashfile (fun _ c => c.isEmpty) (fun _ : String => some [1]) "f" 0 "sha256" =
        some true ∧
      (fun (_ : String) (c : List Nat) => c.isEmpty) "sha256" [1] = false ∧
      (some true : Option Bool) ≠ some false ∧
      (some true : Option Bool) ≠ none := by
  refine ⟨?_, rfl, by decide, by decide⟩
  show some (hashLoop 0 [] [1]).isEmpty = some true
  rw [hashLoop_zero]
  rfl

/-- Claim C5 (amended): for every input path, algorithm, and **positive**
chunk size, `hashfile` either returns the digest of the file's full byte
content or, on any access failure, returns `None`; being a total function it
propagates no exception, so the scan survives unreadable files.  (The
program's only call site uses the default chunk size 65536; at the degenerate
chunk size 0 the code would digest the empty prefix instead, see
`C5_counterexample`.) -/
theorem C5_digest_of_full_content_or_none {δ : Type}
    (H : String → List Nat → δ) (contentOf : String → Option (List Nat))
    (path : String) (bs : Nat) (algo : String) (hbs : 0 < bs) :
    (∃ c, contentOf path = some c ∧
        hashfile H contentOf path bs algo = some (H algo c)) ∨
      (contentOf path = none ∧ hashfile H contentOf path bs algo = none) := by
  cases hc : contentOf path with
  | some c =>
    refine Or.inl ⟨c, rfl, ?_⟩
    rw [hashfile_eq H contentOf path bs algo hbs, hc, Option.map_some']
  | none =>
    refine Or.inr ⟨rfl, ?_⟩
    rw [hashfile_eq H contentOf path bs algo hbs, hc, Option.map_none']

/-- Witness for C5 at the program's actual chunk size 65536. -/
theorem C5_digest_of_full_content_or_none_witness :
    (∃ c, (fun _ : String => some ([3, 4] : List Nat)) "f" = some c ∧
        hashfile (fun _ c => c.length)
          (fun _ : String => some ([3, 4] : List Nat)) "f" 65536 "md5" =
          some ((fun (_ : String) (c : List Nat) => c.length) "md5" c)) ∨
      ((fun _ : String => some ([3, 4] : List Nat)) "f" = none ∧
        hashfile (fun _ c => c.length)
          (fun _ : String => some ([3, 4] : List Nat)) "f" 65536 "md5" = none) :=
  C5_digest_of_full_content_or_none (fun _ c => c.length)
    (fun _ : String => some [3, 4]) "f" 65536 "md5" (by decide)

/-- Claim C1: under the ideal-hash reading the spec itself adopts (digest
equality certifies content equality: the digest function is injective) and
scan-time consistency of size with content, all members of one duplicate
group have the same reported size — two files with distinct byte sizes are
never placed in the same group, so the size partition is a true pre-filter
on the final output. -/
theorem C1_same_group_same_size {δ : Type} [DecidableEq δ]
    (es : List (String × EntryKind)) (sizeOf : String → Option Nat)
    (H : String → List Nat → δ) (contentOf : String → Option (List Nat))
    (algo : String) (groups : List (δ × List String))
    (hinj : Function.Injective (H algo))
    (hsz : ∀ p n c, sizeOf p = some n → contentOf p = some c → c.length = n)
    (hrun : find_duplicates (WalkInput.ok es) sizeOf
        (fun p => hashfile H contentOf p 65536 algo) = ScanOutcome.result groups)
    (h : δ) (ps : List String) (hg : (h, ps) ∈ groups) (p q : String)
    (hp : p ∈ ps) (hq : q ∈ ps) :
    sizeOf p = sizeOf q := by
  rw [find_duplicates_ok_eq] at hrun
  injection hrun with hrun
  rw [← hrun] at hg
  obtain ⟨hdp, ⟨sp, hsp⟩, -⟩ := core_member_facts hg hp
  obtain ⟨hdq, ⟨sq, hsq⟩, -⟩ := core_member_facts hg hq
  have hdp' : hashfile H contentOf p 65536 algo = some h := hdp
  have hdq' : hashfile H contentOf q 65536 algo = some h := hdq
  rw [hashfile_eq H contentOf p 65536 algo (by decide)] at hdp'
  rw [hashfile_eq H contentOf q 65536 algo (by decide)] at hdq'
  obtain ⟨cp, hcp, hHp⟩ := Option.map_eq_some'.1 hdp'
  obtain ⟨cq, hcq, hHq⟩ := Option.map_eq_some'.1 hdq'
  have hceq : cp = cq := hinj (by rw [hHp, hHq])
  have h1 : cp.length = sp := hsz p sp cp hsp hcp
  have h2 : cq.length = sq := hsz q sq cq hsq hcq
  have hss : sp = sq := by rw [← h1, ← h2, hceq]
  rw [hsp, hsq, hss]

/-- Witness for C1: two identical files; both hypotheses hold at an
injective digest and the theorem applies, giving equal sizes. -/
theorem C1_same_group_same_size_witness :
    (fun _ : String => some (1 : Nat)) "a" = (fun _ : String => some (1 : Nat)) "b" := by
  have hdg : (fun p : String => hashfile (fun _ c => c)
      (fun _ : String => some ([7] : List Nat)) p 65536 "sha256") =
      (fun _ : String => some ([7] : List Nat)) := by
    funext p
    rw [hashfile_eq (fun _ c => c) (fun _ : String => some ([7] : List Nat))
      p 65536 "sha256" (by decide)]
    rfl
  refine C1_same_group_same_size
    [("a", EntryKind.regular), ("b", EntryKind.regular)]
    (fun _ : String => some 1) (fun _ c => c)
    (fun _ : String => some [7]) "sha256" [([7], ["a", "b"])]
    (fun a b hab => hab) ?_ ?_ [7] ["a", "b"] ?_ "a" "b" ?_ ?_
  · intro p n c h1 h2
    injection h1 with h1
    injection h2 with h2
    rw [← h1, ← h2]
    rfl
  · rw [hdg]
    decide
  · decide
  · decide
  · decide

/-- Claim C2: on an unchanged tree — same walked entries, same size and
digest oracles — the scan returns the same mapping on every run, for every
worker pool size and every order in which the hashing tasks complete. -/
theorem C2_deterministic_grouping {δ : Type} [DecidableEq δ]
    (es : List (String × EntryKind)) (sizeOf : String → Option Nat)
    (digestOf : String → Option δ) (n₁ n₂ : Nat) (perm₁ perm₂ : List Nat)
    (h₁ : perm₁.Perm (List.range
      (tasksOf (potential_duplicates (size_map sizeOf (file_list es)))).length))
    (h₂ : perm₂.Perm (List.range
      (tasksOf (potential_duplicates (size_map sizeOf (file_list es)))).length)) :
    find_duplicates_sched (WalkInput.ok es) sizeOf digestOf n₁ perm₁ =
      find_duplicates_sched (WalkInput.ok es) sizeOf digestOf n₂ perm₂ := by
  have e₁ : find_duplicates_sched (WalkInput.ok es) sizeOf digestOf n₁ perm₁ =
      ScanOutcome.result
        (find_duplicates_core_sched (file_list es) sizeOf digestOf n₁ perm₁) :=
    rfl
  have e₂ : find_duplicates_sched (WalkInput.ok es) sizeOf digestOf n₂ perm₂ =
      ScanOutcome.result
        (find_duplicates_core_sched (file_list es) sizeOf digestOf n₂ perm₂) :=
    rfl
  rw [e₁, e₂, find_duplicates_core_sched_eq _ _ _ _ _ h₁,
    find_duplicates_core_sched_eq _ _ _ _ _ h₂]

/-- Witness for C2: two equal files, pool sizes 1 and 8, the two opposite
completion orders; the outcome is the same. -/
theorem C2_deterministic_grouping_witness :
    find_duplicates_sched
        (WalkInput.ok [("a", EntryKind.regular), ("b", EntryKind.regular)])
        (fun _ => some 1) (fun _ : String => some (0 : Nat)) 1 [0, 1] =
      find_duplicates_sched
        (WalkInput.ok [("a", EntryKind.regular), ("b", EntryKind.regular)])
        (fun _ => some 1) (fun _ : String => some (0 : Nat)) 8 [1, 0] :=
  C2_deterministic_grouping _ _ _ 1 8 [0, 1] [1, 0] (by decide) (by decide)

/-- Claim C4 counterexample: the claim says only regular files enter the
size pass and other special files (FIFOs, devices) are excluded.  On the
code, the walk loop filters **only** symbolic links (`os.path.islink`), and
`os.walk` lists every non-directory entry — FIFOs included — in `filenames`;
so a special file is sized and grouped: here the sole walked entry is a
special file, yet it lands in the size map. -/
theorem C4_counterexample :
    (pathJoin "r" "fifo", EntryKind.special) ∈
        walkDir "r" [FSNode.entry "fifo" EntryKind.special] ∧
      size_map (fun _ => some 0)
          (file_list (walkDir "r" [FSNode.entry "fifo" EntryKind.special])) =
        [(0, [pathJoin "r" "fifo"])] := by
  rw [walkDir]
  constructor
  · simp [filesOf, walkSubdirs]
  · simp only [walkSubdirs, filesOf]
    rfl

/-- Claim C4 (amended): per-entry classification as the code implements it —
symbolic links are excluded unconditionally (hence never in the file list,
any size group, or any duplicate group), directories are recursed into, and
**every other non-directory entry — regular and special files alike — is
included** in the size pass (the code filters only on `os.path.islink`). -/
theorem C4_classification {δ : Type} [DecidableEq δ]
    (sizeOf : String → Option Nat) (digestOf : String → Option δ) :
    (∀ (es : List (String × EntryKind)) (p : String),
        p ∈ file_list es ↔ ∃ k, (p, k) ∈ es ∧ k ≠ EntryKind.symlink) ∧
      (∀ (fl : List String) (s : Nat) (qs : List String) (p : String),
        (s, qs) ∈ size_map sizeOf fl → p ∈ qs → p ∈ fl) ∧
      (∀ (fl : List String) (h : δ) (ps : List String) (p : String),
        (h, ps) ∈ find_duplicates_core fl sizeOf digestOf → p ∈ ps → p ∈ fl) ∧
      (∀ (base n : String) (cs rest : List FSNode) (x : String × EntryKind),
        x ∈ walkDir (pathJoin base n) cs →
          x ∈ walkDir base (FSNode.dir n cs :: rest)) ∧
      (∀ (base n : String) (k : EntryKind) (cs : List FSNode),
        FSNode.entry n k ∈ cs → k ≠ EntryKind.symlink →
          pathJoin base n ∈ file_list (walkDir base cs)) := by
  refine ⟨?_, ?_, ?_, ?_, ?_⟩
  · intro es p
    exact mem_file_list_iff
  · intro fl s qs p hsm hp
    exact (size_map_mem_path hsm hp).2
  · intro fl h ps p hg hp
    exact (core_member_facts hg hp).2.2
  · intro base n cs rest x hx
    exact mem_walkDir_of_subdir hx
  · intro base n k cs hmem hk
    exact mem_file_list_iff.2
      ⟨k, mem_walkDir_of_filesOf (mem_filesOf_of_entry hmem), hk⟩

/-- Witness for C4: directory recursion — a regular file inside the
subdirectory `d` appears in the walk of the parent `r`. -/
theorem C4_classification_witness :
    (pathJoin (pathJoin "r" "d") "x", EntryKind.regular) ∈
      walkDir "r" [FSNode.dir "d" [FSNode.entry "x" EntryKind.regular]] := by
  refine (C4_classification (fun _ => some 0)
      (fun _ : String => some (0 : Nat))).2.2.2.1 "r" "d"
      [FSNode.entry "x" EntryKind.regular] [] _ ?_
  rw [walkDir]
  refine List.mem_append_left _ ?_
  simp [filesOf]

/-- Claim C8: under the ideal-hash reading, every group of the final mapping
is carved out of a single size group: its members are exactly the
matching-digest subsequence of that size group, in the size group's
enumeration order (`Sublist`), and this holds for every completion order of
the hashing tasks and every pool size — so the first element (the designated
original) is determined by the directory walk alone. -/
theorem C8_group_order_follows_size_group {δ : Type} [DecidableEq δ]
    (es : List (String × EntryKind)) (sizeOf : String → Option Nat)
    (H : String → List Nat → δ) (contentOf : String → Option (List Nat))
    (algo : String) (nWorkers : Nat) (perm : List Nat)
    (groups : List (δ × List String))
    (hinj : Function.Injective (H algo))
    (hsz : ∀ p n c, sizeOf p = some n → contentOf p = some c → c.length = n)
    (hperm : perm.Perm (List.range
      (tasksOf (potential_duplicates (size_map sizeOf (file_list es)))).length))
    (hrun : find_duplicates_sched (WalkInput.ok es) sizeOf
        (fun p => hashfile H contentOf p 65536 algo) nWorkers perm =
      ScanOutcome.result groups)
    (h : δ) (ps : List String) (hg : (h, ps) ∈ groups) :
    ∃ s qs, (s, qs) ∈ size_map sizeOf (file_list es) ∧
      ps = qs.filterMap (fun p =>
        if hashfile H contentOf p 65536 algo = some h then some p else none) ∧
      ps.Sublist qs := by
  have e : find_duplicates_sched (WalkInput.ok es) sizeOf
      (fun p => hashfile H contentOf p 65536 algo) nWorkers perm =
      ScanOutcome.result (find_duplicates_core_sched (file_list es) sizeOf
        (fun p => hashfile H contentOf p 65536 algo) nWorkers perm) := rfl
  rw [e, find_duplicates_core_sched_eq _ _ _ _ _ hperm] at hrun
  injection hrun with hrun
  rw [← hrun] at hg
  have hcomp : ∀ p q sp sq d, sizeOf p = some sp → sizeOf q = some sq →
      (fun p => hashfile H contentOf p 65536 algo) p = some d →
      (fun p => hashfile H contentOf p 65536 algo) q = some d → sp = sq := by
    intro p q sp sq d hsp hsq hdp hdq
    have hdp' : hashfile H contentOf p 65536 algo = some d := hdp
    have hdq' : hashfile H contentOf q 65536 algo = some d := hdq
    rw [hashfile_eq H contentOf p 65536 algo (by decide)] at hdp'
    rw [hashfile_eq H contentOf q 65536 algo (by decide)] at hdq'
    obtain ⟨cp, hcp, hHp⟩ := Option.map_eq_some'.1 hdp'
    obtain ⟨cq, hcq, hHq⟩ := Option.map_eq_some'.1 hdq'
    have hceq : cp = cq := hinj (by rw [hHp, hHq])
    rw [← hsz p sp cp hsp hcp, ← hsz q sq cq hsq hcq, hceq]
  exact core_group_single_size hcomp hg

/-- Witness for C8: two identical files, reverse completion order `[1, 0]`;
the group is the whole (unique) size group in enumeration order. -/
theorem C8_group_order_follows_size_group_witness :
    ∃ s qs, (s, qs) ∈ size_map (fun _ : String => some 1)
        (file_list [("a", EntryKind.regular), ("b", EntryKind.regular)]) ∧
      ["a", "b"] = qs.filterMap (fun p =>
        if hashfile (fun _ c => c) (fun _ : String => some ([7] : List Nat))
            p 65536 "sha256" = some [7] then some p else none) ∧
      (["a", "b"] : List String).Sublist qs := by
  have hdg : (fun p : String => hashfile (fun _ c => c)
      (fun _ : String => some ([7] : List Nat)) p 65536 "sha256") =
      (fun _ : String => some ([7] : List Nat)) := by
    funext p
    rw [hashfile_eq (fun _ c => c) (fun _ : String => some ([7] : List Nat))
      p 65536 "sha256" (by decide)]
    rfl
  refine C8_group_order_follows_size_group
    [("a", EntryKind.regular), ("b", EntryKind.regular)]
    (fun _ : String => some 1) (fun _ c => c)
    (fun _ : String => some [7]) "sha256" 4 [1, 0] [([7], ["a", "b"])]
    (fun a b hab => hab) ?_ ?_ ?_ [7] ["a", "b"] ?_
  · intro p n c h1 h2
    injection h1 with h1
    injection h2 with h2
    rw [← h1, ← h2]
    rfl
  · decide
  · rw [hdg]
    decide
  · decide
